import Mathlib

/-!
# Verification of the EVE LP-store optimizer

Shallow embedding of `eve_lp_optimizer.py`.  Python `float` values are
modelled as exact rationals (`ℚ`), Python `int` as `ℤ`.  Python's `//`
(floor division) is `Int.fdiv` on integers and `⌊·/·⌋` on rationals;
Python's `int(...)` conversion (truncation toward zero) is `pyInt`.
Code paths that would raise `ZeroDivisionError` are modelled by `Option`
with `none` as the raised-exception outcome.  The catalog invariant of the
data model (`lp_cost > 0`, `units_per_purchase > 0`, volumes ≥ 0) appears
as a hypothesis of the theorems that rely on it.
-/

/-- Python `int(q)` on a rational: truncation toward zero. -/
def pyInt (q : ℚ) : ℤ := if 0 ≤ q then ⌊q⌋ else ⌈q⌉

/-- `LPStoreItem` dataclass: an item available in the LP store. -/
structure LPStoreItem where
  name : String
  faction_type_id : ℤ
  base_type_id : ℤ
  base_name : String
  lp_cost : ℤ
  isk_cost : ℤ
  units_per_purchase : ℤ
  volume_per_unit : ℚ
  category : String
deriving DecidableEq

/-- `LPStoreItem.volume_per_purchase` property:
`volume_per_unit * units_per_purchase`. -/
def LPStoreItem.volume_per_purchase (i : LPStoreItem) : ℚ :=
  i.volume_per_unit * (i.units_per_purchase : ℚ)

/-- `MarketData` dataclass: market data for an item. -/
structure MarketData where
  type_id : ℤ
  price : ℚ
  daily_volume : ℚ
  available_volume : ℤ
deriving DecidableEq

/-- `ItemAnalysis` dataclass: analysis of an LP store item. -/
structure ItemAnalysis where
  item : LPStoreItem
  base_market : MarketData
  faction_market : MarketData
  base_cost_per_purchase : ℚ
  faction_revenue_per_purchase : ℚ
  total_cost_per_purchase : ℚ
  profit_per_purchase : ℚ
  net_isk_per_lp : ℚ
  daily_volume_purchases : ℚ
  lp_per_m3 : ℚ
deriving DecidableEq

/-- The per-item body of `analyze_items` (lines 304–345): given the item and
the two fetched quotes, either produce the `ItemAnalysis` or skip the item
(`none`).  The divisions by `item.lp_cost` and `item.units_per_purchase` are
total `ℚ`-division here; they mirror the Python code exactly whenever the
catalog invariant `lp_cost > 0`, `units_per_purchase > 0` holds (Python would
raise `ZeroDivisionError` otherwise). -/
def analyzeItem (item : LPStoreItem) (base? faction? : Option MarketData) :
    Option ItemAnalysis :=
  match base? with
  | none => none
  | some base_market =>
    match faction? with
    | none => none
    | some faction_market =>
      if faction_market.price ≤ 0 then none
      else
        let base_cost := base_market.price * (item.units_per_purchase : ℚ)
        let faction_revenue := faction_market.price * (item.units_per_purchase : ℚ)
        let total_cost := base_cost + (item.isk_cost : ℚ)
        let profit := faction_revenue - total_cost
        if profit ≤ 0 then none
        else
          some
            { item := item
              base_market := base_market
              faction_market := faction_market
              base_cost_per_purchase := base_cost
              faction_revenue_per_purchase := faction_revenue
              total_cost_per_purchase := total_cost
              profit_per_purchase := profit
              net_isk_per_lp := profit / (item.lp_cost : ℚ)
              daily_volume_purchases :=
                faction_market.daily_volume / (item.units_per_purchase : ℚ)
              lp_per_m3 :=
                if 0 < item.volume_per_purchase then
                  (item.lp_cost : ℚ) / item.volume_per_purchase
                else 0 }

/-- `analyze_items` over a whole catalog, with the quotes the market-data
provider returned for each entry supplied as data. -/
def analyze_items
    (rows : List (LPStoreItem × Option MarketData × Option MarketData)) :
    List ItemAnalysis :=
  rows.filterMap (fun r => analyzeItem r.1 r.2.1 r.2.2)

/-- The liquidity filter with fallback of `optimize_purchases`
(lines 385–389). -/
def viable_items (min_liquidity : ℚ) (analyses : List ItemAnalysis) :
    List ItemAnalysis :=
  let v := analyses.filter (fun a => decide (min_liquidity ≤ a.daily_volume_purchases))
  if v = [] then analyses else v

/-- Average LP density of the candidate set (line 392). -/
def avg_lp_per_m3 (viable : List ItemAnalysis) : ℚ :=
  if viable = [] then 1
  else (viable.map (fun a => a.lp_per_m3)).sum / (viable.length : ℚ)

/-- The `sort_key` closure of `optimize_purchases` (lines 395–410).  The
floating-point power `x ** w` of the density boost is abstracted as an
arbitrary function `rpow`; no claim in scope depends on its values. -/
def sort_key (rpow : ℚ → ℚ → ℚ) (max_days_to_sell lp_density_weight
    avg : ℚ) (a : ItemAnalysis) : ℚ :=
  let base_value := a.net_isk_per_lp
  let base_value :=
    if 0 < a.daily_volume_purchases then
      let days_to_sell_one := 1 / a.daily_volume_purchases
      if max_days_to_sell < days_to_sell_one then
        base_value * (max_days_to_sell / days_to_sell_one)
      else base_value
    else base_value
  if 0 < lp_density_weight ∧ 0 < avg then
    base_value * rpow (a.lp_per_m3 / avg) lp_density_weight
  else base_value

/-- The spec's "liquidity-penalized profit-per-LP-point": the composite score
with the density-boost step removed (spec §4.2 steps 1–2 of the composite
score).  Used to compare with `sort_key` at `lp_density_weight = 0`. -/
def liquidity_penalized_score (max_days_to_sell : ℚ) (a : ItemAnalysis) : ℚ :=
  let base_value := a.net_isk_per_lp
  if 0 < a.daily_volume_purchases then
    let days_to_sell_one := 1 / a.daily_volume_purchases
    if max_days_to_sell < days_to_sell_one then
      base_value * (max_days_to_sell / days_to_sell_one)
    else base_value
  else base_value

/-- Stable insertion for descending sort by key (a model of Python's stable
`list.sort(key=…, reverse=True)`). -/
def insertDesc {α : Type} (key : α → ℚ) (x : α) : List α → List α
  | [] => [x]
  | y :: ys => if key y ≤ key x then x :: y :: ys else y :: insertDesc key x ys

/-- Stable descending sort by key. -/
def sortDesc {α : Type} (key : α → ℚ) : List α → List α
  | [] => []
  | x :: xs => insertDesc key x (sortDesc key xs)

/-- The quantity allocated by one step of `_greedy_allocation`
(lines 441–452): `min(max_by_lp, max_by_cargo, max(1, max_by_volume))`. -/
def greedyQuantity (analysis : ItemAnalysis) (remaining_lp : ℤ)
    (remaining_cargo max_days_to_sell : ℚ) : ℤ :=
  min (min (Int.fdiv remaining_lp analysis.item.lp_cost)
      ⌊remaining_cargo / analysis.item.volume_per_purchase⌋)
    (max 1 (if 0 < analysis.daily_volume_purchases then
      pyInt (analysis.daily_volume_purchases * max_days_to_sell) else 1))

/-- `_greedy_allocation` (lines 425–459).  Structural recursion over the
candidate list carrying the running budgets; `none` models the
`ZeroDivisionError` raised when `lp_cost = 0` (line 442) or
`volume_per_purchase = 0` (line 443). -/
def _greedy_allocation :
    List ItemAnalysis → ℤ → ℚ → ℚ → Option (List (ItemAnalysis × ℤ))
  | [], _, _, _ => some []
  | analysis :: rest, remaining_lp, remaining_cargo, max_days_to_sell =>
    if remaining_lp ≤ 0 ∨ remaining_cargo ≤ 0 then some []
    else if analysis.item.lp_cost = 0 ∨ analysis.item.volume_per_purchase = 0 then
      none
    else if 0 < greedyQuantity analysis remaining_lp remaining_cargo max_days_to_sell then
      (_greedy_allocation rest
          (remaining_lp -
            greedyQuantity analysis remaining_lp remaining_cargo max_days_to_sell *
              analysis.item.lp_cost)
          (remaining_cargo -
            (greedyQuantity analysis remaining_lp remaining_cargo max_days_to_sell : ℚ) *
              analysis.item.volume_per_purchase)
          max_days_to_sell).map
        (fun l =>
          (analysis,
            greedyQuantity analysis remaining_lp remaining_cargo max_days_to_sell) :: l)
    else _greedy_allocation rest remaining_lp remaining_cargo max_days_to_sell

/-- The batch computation of `_diversified_allocation` for one entry
(lines 494–504): returns `(batch_purchases, remaining_for_item)`. -/
def batchInfo (max_days_to_sell batch_size_days : ℚ) (a : ItemAnalysis)
    (current_qty : ℤ) : ℤ × ℤ :=
  if 0 < a.daily_volume_purchases then
    let batch_purchases := max 1 (pyInt (a.daily_volume_purchases * batch_size_days))
    let max_total := pyInt (a.daily_volume_purchases * max_days_to_sell)
    let remaining_for_item := max 0 (max_total - current_qty)
    (min batch_purchases remaining_for_item, remaining_for_item)
  else (1, 1 - current_qty)

/-- The quantity allocated to one entry by a diversified round
(lines 510–514): `min(batch_purchases, max_by_lp, max_by_cargo)`. -/
def divQuantity (max_days_to_sell batch_size_days : ℚ) (analysis : ItemAnalysis)
    (current_qty remaining_lp : ℤ) (remaining_cargo : ℚ) : ℤ :=
  min (min (batchInfo max_days_to_sell batch_size_days analysis current_qty).1
      (Int.fdiv remaining_lp analysis.item.lp_cost))
    ⌊remaining_cargo / analysis.item.volume_per_purchase⌋

/-- One round of `_diversified_allocation`'s `while` loop (lines 486–520):
the `for alloc_entry in allocations` pass.  Returns the updated allocation
list, both remaining budgets and the `allocation_made` flag; `none` models
the `ZeroDivisionError` of lines 510–511. -/
def divRound (max_days_to_sell batch_size_days : ℚ) :
    List (ItemAnalysis × ℤ) → ℤ → ℚ → Bool →
    Option (List (ItemAnalysis × ℤ) × ℤ × ℚ × Bool)
  | [], remaining_lp, remaining_cargo, made =>
    some ([], remaining_lp, remaining_cargo, made)
  | (analysis, current_qty) :: rest, remaining_lp, remaining_cargo, made =>
    if remaining_lp ≤ 0 ∨ remaining_cargo ≤ 0 then
      some ((analysis, current_qty) :: rest, remaining_lp, remaining_cargo, made)
    else if (batchInfo max_days_to_sell batch_size_days analysis current_qty).2 ≤ 0 then
      (divRound max_days_to_sell batch_size_days rest remaining_lp
          remaining_cargo made).map
        (fun r => ((analysis, current_qty) :: r.1, r.2))
    else if analysis.item.lp_cost = 0 ∨ analysis.item.volume_per_purchase = 0 then
      none
    else if 0 < divQuantity max_days_to_sell batch_size_days analysis current_qty
        remaining_lp remaining_cargo then
      (divRound max_days_to_sell batch_size_days rest
          (remaining_lp -
            divQuantity max_days_to_sell batch_size_days analysis current_qty
              remaining_lp remaining_cargo * analysis.item.lp_cost)
          (remaining_cargo -
            (divQuantity max_days_to_sell batch_size_days analysis current_qty
              remaining_lp remaining_cargo : ℚ) * analysis.item.volume_per_purchase)
          true).map
        (fun r =>
          ((analysis,
            current_qty +
              divQuantity max_days_to_sell batch_size_days analysis current_qty
                remaining_lp remaining_cargo) :: r.1, r.2))
    else
      (divRound max_days_to_sell batch_size_days rest remaining_lp
          remaining_cargo made).map
        (fun r => ((analysis, current_qty) :: r.1, r.2))

/-- The liquidity cap of the diversified strategy for one candidate:
`int(daily_volume_purchases * max_days_to_sell)` lots when the market absorbs
a positive daily volume, else a single lot. -/
def liquidityCap (max_days_to_sell : ℚ) (a : ItemAnalysis) : ℤ :=
  if 0 < a.daily_volume_purchases then
    pyInt (a.daily_volume_purchases * max_days_to_sell)
  else 1

/-- Termination measure of the diversified round loop: total remaining
headroom below the per-candidate liquidity caps. -/
def divMeasure (max_days_to_sell : ℚ) (allocs : List (ItemAnalysis × ℤ)) : ℕ :=
  (allocs.map (fun x => (liquidityCap max_days_to_sell x.1 - x.2).toNat)).sum

/-- The `while allocation_made and remaining_lp > 0 and remaining_cargo > 0`
loop of `_diversified_allocation` (lines 481–520), with explicit fuel.  Each
iteration resets `allocation_made` to `False` and runs one round.  `none`
arises from fuel exhaustion or a round's `ZeroDivisionError`; the fuel
`divMeasure … + 2` used below is proven sufficient (the loop stabilizes). -/
def divLoopFuel (max_days_to_sell batch_size_days : ℚ) :
    ℕ → List (ItemAnalysis × ℤ) → ℤ → ℚ → Bool →
    Option (List (ItemAnalysis × ℤ))
  | 0, _, _, _, _ => none
  | n + 1, allocs, remaining_lp, remaining_cargo, made =>
    if made = true ∧ 0 < remaining_lp ∧ 0 < remaining_cargo then
      match divRound max_days_to_sell batch_size_days allocs remaining_lp
          remaining_cargo false with
      | none => none
      | some (allocs', lp', cargo', made') =>
        divLoopFuel max_days_to_sell batch_size_days n allocs' lp' cargo' made'
    else some allocs

/-- `_diversified_allocation` (lines 462–525): initialize every quantity to 0,
run the round loop, and keep the entries with positive quantity. -/
def _diversified_allocation (viable : List ItemAnalysis) (available_lp : ℤ)
    (cargo_capacity : ℚ) (max_days_to_sell batch_size_days : ℚ) :
    Option (List (ItemAnalysis × ℤ)) :=
  let allocations := viable.map (fun a => (a, (0 : ℤ)))
  (divLoopFuel max_days_to_sell batch_size_days
      (divMeasure max_days_to_sell allocations + 2) allocations available_lp
      cargo_capacity true).map
    (fun al => al.filter (fun x => decide (0 < x.2)))

/-- `optimize_purchases` (lines 352–422): liquidity filter with fallback,
average LP density, hybrid sort, then the selected allocation strategy. -/
def optimize_purchases (rpow : ℚ → ℚ → ℚ) (analyses : List ItemAnalysis)
    (available_lp : ℤ) (cargo_capacity : ℚ) (min_liquidity max_days_to_sell : ℚ)
    (diversify : Bool) (batch_size_days lp_density_weight : ℚ) :
    Option (List (ItemAnalysis × ℤ)) :=
  let viable := viable_items min_liquidity analyses
  let avg := avg_lp_per_m3 viable
  let sorted := sortDesc (sort_key rpow max_days_to_sell lp_density_weight avg) viable
  if diversify = false then
    _greedy_allocation sorted available_lp cargo_capacity max_days_to_sell
  else
    _diversified_allocation sorted available_lp cargo_capacity max_days_to_sell
      batch_size_days

/-- Total LP cost of a plan: `Σ quantity × lp_cost`. -/
def allocSumLP (l : List (ItemAnalysis × ℤ)) : ℤ :=
  (l.map (fun x => x.2 * x.1.item.lp_cost)).sum

/-- Total cargo volume of a plan: `Σ quantity × volume_per_purchase`. -/
def allocSumVol (l : List (ItemAnalysis × ℤ)) : ℚ :=
  (l.map (fun x => (x.2 : ℚ) * x.1.item.volume_per_purchase)).sum

/-- A sample catalog entry for the divergence scenario: one lot costs 1 LP and
occupies 1 m³. -/
def exItemA : LPStoreItem :=
  ⟨"Faction A", 1001, 1, "Base A", 1, 0, 1, 1, "ammo_s"⟩

/-- Second sample catalog entry, identical economics to `exItemA`. -/
def exItemB : LPStoreItem :=
  ⟨"Faction B", 1002, 2, "Base B", 1, 0, 1, 1, "ammo_s"⟩

/-- First of two equally profitable candidates (profit 100 per lot,
100 ISK/LP, 0.3 lots of daily absorption). -/
def exA : ItemAnalysis :=
  ⟨exItemA, ⟨1, 1, 3/10, 3⟩, ⟨1001, 101, 3/10, 3⟩, 1, 101, 1, 100, 100, 3/10, 1⟩

/-- Second of two equally profitable candidates. -/
def exB : ItemAnalysis :=
  ⟨exItemB, ⟨2, 1, 3/10, 3⟩, ⟨1002, 101, 3/10, 3⟩, 1, 101, 1, 100, 100, 3/10, 1⟩

/-- A candidate whose lot occupies zero cargo volume (`volume_per_unit = 0`),
permitted by the data-model invariant `volume-per-lot ≥ 0`. -/
def badA : ItemAnalysis :=
  ⟨⟨"Bad", 1003, 3, "Base C", 1, 0, 1, 0, "ammo_s"⟩, ⟨3, 1, 0, 0⟩,
    ⟨1003, 101, 0, 0⟩, 1, 101, 1, 100, 100, 0, 0⟩

/-- The Republic Fleet EMP S catalog entry (line 126):
lp 1200, isk 1,200,000, 5000 units per purchase, 0.0025 m³ per unit. -/
def empS : LPStoreItem :=
  ⟨"Republic Fleet EMP S", 21898, 185, "EMP S", 1200, 1200000, 5000, 1/400, "ammo_s"⟩

/-- Sample-mode quote for the EMP S base item: price 8, daily volume
50,000,000 (line 39), available volume ×10 (line 238). -/
def empSBase : MarketData := ⟨185, 8, 50000000, 500000000⟩

/-- Sample-mode quote for the Republic Fleet EMP S faction item:
price 568, daily volume 377,000 (line 73). -/
def empSFaction : MarketData := ⟨21898, 568, 377000, 3770000⟩

/-- The analysis the analyzer computes for `empS` from the two sample quotes:
base cost 8×5000 = 40,000; revenue 568×5000 = 2,840,000; total cost
1,240,000; profit 1,600,000; 4000/3 ISK per LP; 75.4 lots of daily
absorption; 96 LP per m³. -/
def empSAnalysis : ItemAnalysis :=
  ⟨empS, empSBase, empSFaction, 40000, 2840000, 1240000, 1600000,
    4000 / 3, 377 / 5, 96⟩

/-- The per-candidate quantity bound maintained by the diversified strategy:
at most `⌊daily_volume_purchases * max_days_to_sell⌋` lots for a liquid
candidate, at most one lot for an illiquid one. -/
def capProp (max_days_to_sell : ℚ) (x : ItemAnalysis × ℤ) : Prop :=
  (0 < x.1.daily_volume_purchases →
    x.2 ≤ ⌊x.1.daily_volume_purchases * max_days_to_sell⌋) ∧
  (x.1.daily_volume_purchases = 0 → x.2 ≤ 1)

/-- The un-clamped per-round batch size of the diversified strategy:
`max(1, int(daily_volume_purchases * batch_size_days))` for a liquid
candidate, a single lot otherwise; an upper bound on what one round can
allocate to the candidate. -/
def roundBatchBound (batch_size_days : ℚ) (a : ItemAnalysis) : ℤ :=
  max 1 (pyInt (a.daily_volume_purchases * batch_size_days))

/-- The spec's formula for the greedy step quantity (spec §4.3):
`min(floor(LP budget / lp-cost), floor(cargo budget / volume-per-lot),
max(1, floor(daily-lot-absorption × max-days-to-sell)))`, using 1 in place of
the floor when daily-lot-absorption is 0.  Written from the spec's words, to
be compared with the code's `greedyQuantity`. -/
def specGreedyQuantity (analysis : ItemAnalysis) (remaining_lp : ℤ)
    (remaining_cargo max_days_to_sell : ℚ) : ℤ :=
  min (min ⌊(remaining_lp : ℚ) / (analysis.item.lp_cost : ℚ)⌋
      ⌊remaining_cargo / analysis.item.volume_per_purchase⌋)
    (max 1 (if analysis.daily_volume_purchases = 0 then 1
      else ⌊analysis.daily_volume_purchases * max_days_to_sell⌋))

/-- LP budget sufficient for one diversified round plus one extra lot of each
candidate: `Σ (roundBatchBound + 1) × lp_cost`.  A budget at least this large
never binds during the first round. -/
def lpNeed (batch_size_days : ℚ) (l : List ItemAnalysis) : ℤ :=
  (l.map (fun a => (roundBatchBound batch_size_days a + 1) * a.item.lp_cost)).sum

/-- Cargo budget sufficient for one diversified round plus one extra lot of
each candidate: `Σ (roundBatchBound + 1) × volume_per_purchase`. -/
def volNeed (batch_size_days : ℚ) (l : List ItemAnalysis) : ℚ :=
  (l.map (fun a =>
    ((roundBatchBound batch_size_days a : ℚ) + 1) * a.item.volume_per_purchase)).sum

/- ======================================================================= -/
/- Theorems                                                                -/
/- ======================================================================= -/

/- Rational arithmetic is sealed behind `@[irreducible]` in the library;
re-opening it lets `decide` evaluate the embedding on concrete inputs. -/
attribute [local semireducible] Rat.add Rat.mul Rat.inv Rat.sub

/-- Python `//` on integers with a positive divisor is the floor of the
rational division. -/
theorem fdiv_eq_floorQ (n D : ℤ) (h : 0 < D) :
    Int.fdiv n D = ⌊(n : ℚ) / (D : ℚ)⌋ := by
  have hD : (0 : ℚ) < (D : ℚ) := by exact_mod_cast h
  have hfm := Int.fdiv_add_fmod n D
  have h0 : 0 ≤ Int.fmod n D := Int.fmod_nonneg' n h
  have h1 : Int.fmod n D < D := Int.fmod_lt_of_pos n h
  symm
  rw [Int.floor_eq_iff]
  constructor
  · rw [le_div_iff₀ hD]
    have : Int.fdiv n D * D ≤ n := by nlinarith
    exact_mod_cast this
  · rw [div_lt_iff₀ hD]
    have : n < (Int.fdiv n D + 1) * D := by nlinarith
    exact_mod_cast this

/-- A quantity below the `//`-bound consumes at most the available budget. -/
theorem mul_le_of_le_fdiv {q n D : ℤ} (hD : 0 < D) (h : q ≤ Int.fdiv n D) :
    q * D ≤ n := by
  rw [fdiv_eq_floorQ n D hD, Int.le_floor, le_div_iff₀ (by exact_mod_cast hD)] at h
  exact_mod_cast h

/-- One lot fits the `//`-bound iff the unit cost fits the budget. -/
theorem one_le_fdiv {n D : ℤ} (hD : 0 < D) (h : D ≤ n) : 1 ≤ Int.fdiv n D := by
  rw [fdiv_eq_floorQ n D hD, Int.le_floor]
  rw [le_div_iff₀ (by exact_mod_cast hD)]
  push_cast
  simpa using (by exact_mod_cast h : (D : ℚ) ≤ (n : ℚ))

/-- A quantity below the cargo floor-bound consumes at most the available
cargo. -/
theorem mul_le_of_le_floor {q : ℤ} {c v : ℚ} (hv : 0 < v)
    (h : q ≤ ⌊c / v⌋) : (q : ℚ) * v ≤ c := by
  rw [Int.le_floor, le_div_iff₀ hv] at h
  exact h

/-- One lot fits the cargo floor-bound iff its volume fits the cargo. -/
theorem one_le_floor_div {c v : ℚ} (hv : 0 < v) (h : v ≤ c) : 1 ≤ ⌊c / v⌋ := by
  rw [Int.le_floor]
  rw [le_div_iff₀ hv]
  simpa using h

/-- Python truncation agrees with the floor on nonnegative arguments. -/
theorem pyInt_eq_floor {q : ℚ} (h : 0 ≤ q) : pyInt q = ⌊q⌋ := by
  simp [pyInt, h]

/-- Under `max 1`, Python truncation and the floor are interchangeable:
they differ only on negative arguments, where both are clamped to 1. -/
theorem max_one_pyInt (q : ℚ) : max 1 (pyInt q) = max 1 ⌊q⌋ := by
  rcases le_or_lt 0 q with h | h
  · rw [pyInt_eq_floor h]
  · have h1 : ⌈q⌉ ≤ 1 := by
      have := Int.ceil_le_floor_add_one q
      have := Int.floor_nonpos h.le
      omega
    have h2 : ⌊q⌋ ≤ 1 := le_trans (Int.floor_nonpos h.le) (by omega)
    simp [pyInt, not_le.mpr h]
    omega

/-- `allocSumLP` on an empty plan. -/
theorem allocSumLP_nil : allocSumLP [] = 0 := rfl

/-- `allocSumLP` unfolds one entry. -/
theorem allocSumLP_cons (x : ItemAnalysis × ℤ) (l : List (ItemAnalysis × ℤ)) :
    allocSumLP (x :: l) = x.2 * x.1.item.lp_cost + allocSumLP l := by
  simp [allocSumLP]

/-- `allocSumVol` on an empty plan. -/
theorem allocSumVol_nil : allocSumVol [] = 0 := rfl

/-- `allocSumVol` unfolds one entry. -/
theorem allocSumVol_cons (x : ItemAnalysis × ℤ) (l : List (ItemAnalysis × ℤ)) :
    allocSumVol (x :: l) = (x.2 : ℚ) * x.1.item.volume_per_purchase + allocSumVol l := by
  simp [allocSumVol]

/-- A greedy step never exceeds the LP bound. -/
theorem greedyQuantity_le_fdiv (a : ItemAnalysis) (lp : ℤ) (cargo md : ℚ) :
    greedyQuantity a lp cargo md ≤ Int.fdiv lp a.item.lp_cost :=
  le_trans (min_le_left _ _) (min_le_left _ _)

/-- A greedy step never exceeds the cargo bound. -/
theorem greedyQuantity_le_floor (a : ItemAnalysis) (lp : ℤ) (cargo md : ℚ) :
    greedyQuantity a lp cargo md ≤ ⌊cargo / a.item.volume_per_purchase⌋ :=
  le_trans (min_le_left _ _) (min_le_right _ _)

/-- The greedy allocator never hits its division-by-zero branch when every
candidate has nonzero lot cost and volume. -/
theorem greedy_isSome (l : List ItemAnalysis) :
    ∀ (lp : ℤ) (cargo md : ℚ),
      (∀ a ∈ l, a.item.lp_cost ≠ 0 ∧ a.item.volume_per_purchase ≠ 0) →
      (_greedy_allocation l lp cargo md).isSome = true := by
  induction l with
  | nil => intro lp cargo md _; simp [_greedy_allocation]
  | cons a rest ih =>
    intro lp cargo md hinv
    have ha := hinv a (by simp)
    rw [_greedy_allocation]
    split
    · simp
    · rw [if_neg (by simp [ha.1, ha.2])]
      split
      · simpa using ih _ _ _ (fun b hb => hinv b (by simp [hb]))
      · exact ih _ _ _ (fun b hb => hinv b (by simp [hb]))

/-- The greedy allocator's plan consumes at most the starting LP and cargo
budgets. -/
theorem greedy_bounds (l : List ItemAnalysis) :
    ∀ (lp : ℤ) (cargo md : ℚ) (out : List (ItemAnalysis × ℤ)),
      (∀ a ∈ l, 0 < a.item.lp_cost ∧ 0 < a.item.volume_per_purchase) →
      0 ≤ lp → 0 ≤ cargo →
      _greedy_allocation l lp cargo md = some out →
      allocSumLP out ≤ lp ∧ allocSumVol out ≤ cargo := by
  induction l with
  | nil =>
    intro lp cargo md out _ hlp hcargo heq
    simp [_greedy_allocation] at heq
    subst heq
    simp [allocSumLP_nil, allocSumVol_nil, hlp, hcargo]
  | cons a rest ih =>
    intro lp cargo md out hinv hlp hcargo heq
    have ha := hinv a (by simp)
    have hrest : ∀ b ∈ rest, 0 < b.item.lp_cost ∧ 0 < b.item.volume_per_purchase :=
      fun b hb => hinv b (by simp [hb])
    rw [_greedy_allocation] at heq
    split at heq
    · simp only [Option.some.injEq] at heq
      subst heq
      simp [allocSumLP_nil, allocSumVol_nil, hlp, hcargo]
    · rw [if_neg (by simp [ne_of_gt ha.1, ne_of_gt ha.2])] at heq
      split at heq
      · next hq =>
        rw [Option.map_eq_some'] at heq
        obtain ⟨out', hrec, rfl⟩ := heq
        have hlpq : greedyQuantity a lp cargo md * a.item.lp_cost ≤ lp :=
          mul_le_of_le_fdiv ha.1 (greedyQuantity_le_fdiv a lp cargo md)
        have hcq : (greedyQuantity a lp cargo md : ℚ) * a.item.volume_per_purchase ≤ cargo :=
          mul_le_of_le_floor ha.2 (greedyQuantity_le_floor a lp cargo md)
        have hih := ih _ _ _ _ hrest (by omega) (by linarith) hrec
        constructor
        · rw [allocSumLP_cons]
          have := hih.1
          simp only at this ⊢
          omega
        · rw [allocSumVol_cons]
          have := hih.2
          simp only at this ⊢
          linarith
      · exact ih _ _ _ _ hrest hlp hcargo heq

/-- A diversified step never exceeds the batch bound. -/
theorem divQuantity_le_batch (md bd : ℚ) (a : ItemAnalysis) (q lp : ℤ) (c : ℚ) :
    divQuantity md bd a q lp c ≤ (batchInfo md bd a q).1 :=
  le_trans (min_le_left _ _) (min_le_left _ _)

/-- A diversified step never exceeds the LP bound. -/
theorem divQuantity_le_fdiv (md bd : ℚ) (a : ItemAnalysis) (q lp : ℤ) (c : ℚ) :
    divQuantity md bd a q lp c ≤ Int.fdiv lp a.item.lp_cost :=
  le_trans (min_le_left _ _) (min_le_right _ _)

/-- A diversified step never exceeds the cargo bound. -/
theorem divQuantity_le_floor (md bd : ℚ) (a : ItemAnalysis) (q lp : ℤ) (c : ℚ) :
    divQuantity md bd a q lp c ≤ ⌊c / a.item.volume_per_purchase⌋ :=
  min_le_right _ _

/-- The committed batch never exceeds the candidate's remaining headroom. -/
theorem batchInfo_fst_le_snd (md bd : ℚ) (a : ItemAnalysis) (q : ℤ)
    (h : 0 < (batchInfo md bd a q).2) :
    (batchInfo md bd a q).1 ≤ (batchInfo md bd a q).2 := by
  by_cases hd : 0 < a.daily_volume_purchases
  · simp only [batchInfo, if_pos hd]
    exact min_le_right _ _
  · simp only [batchInfo, if_neg hd] at h ⊢
    omega

/-- The committed batch never exceeds the un-clamped per-round batch size. -/
theorem batchInfo_fst_le_bound (md bd : ℚ) (a : ItemAnalysis) (q : ℤ) :
    (batchInfo md bd a q).1 ≤ roundBatchBound bd a := by
  by_cases hd : 0 < a.daily_volume_purchases
  · simp only [batchInfo, if_pos hd, roundBatchBound]
    exact min_le_left _ _
  · simp only [batchInfo, if_neg hd, roundBatchBound]
    exact le_max_left 1 _

/-- For a liquid candidate with remaining headroom, the headroom is exactly
the liquidity cap minus the current quantity. -/
theorem batchInfo_snd_pos (md bd : ℚ) (a : ItemAnalysis) (q : ℤ)
    (hd : 0 < a.daily_volume_purchases) (h : 0 < (batchInfo md bd a q).2) :
    (batchInfo md bd a q).2 = liquidityCap md a - q := by
  simp only [batchInfo, if_pos hd, liquidityCap] at h ⊢
  omega

/-- For an illiquid candidate the headroom is one lot minus the current
quantity. -/
theorem batchInfo_snd_nonpos_dvp (md bd : ℚ) (a : ItemAnalysis) (q : ℤ)
    (hd : ¬0 < a.daily_volume_purchases) :
    (batchInfo md bd a q).2 = 1 - q := by
  simp only [batchInfo, if_neg hd]

/-- `divMeasure` on an empty allocation list. -/
theorem divMeasure_nil (md : ℚ) : divMeasure md [] = 0 := rfl

/-- `divMeasure` unfolds one entry. -/
theorem divMeasure_cons (md : ℚ) (x : ItemAnalysis × ℤ)
    (l : List (ItemAnalysis × ℤ)) :
    divMeasure md (x :: l) =
      (liquidityCap md x.1 - x.2).toNat + divMeasure md l := by
  simp [divMeasure]

/-- A round preserves the candidates and never decreases any quantity. -/
theorem divRound_forall2 (md bd : ℚ) (l : List (ItemAnalysis × ℤ)) :
    ∀ (lp : ℤ) (cargo : ℚ) (made : Bool) r,
      divRound md bd l lp cargo made = some r →
      List.Forall₂ (fun x y => x.1 = y.1 ∧ x.2 ≤ y.2) l r.1 := by
  induction l with
  | nil =>
    intro lp cargo made r heq
    rw [divRound, Option.some.injEq] at heq
    subst heq
    exact List.Forall₂.nil
  | cons x rest ih =>
    obtain ⟨a, q⟩ := x
    intro lp cargo made r heq
    rw [divRound] at heq
    split at heq
    · rw [Option.some.injEq] at heq
      subst heq
      exact List.forall₂_same.mpr (fun x _ => ⟨rfl, le_refl _⟩)
    · split at heq
      · rw [Option.map_eq_some'] at heq
        obtain ⟨r', hr', rfl⟩ := heq
        exact List.Forall₂.cons ⟨rfl, le_refl _⟩ (ih _ _ _ _ hr')
      · split at heq
        · exact absurd heq (by simp)
        · split at heq
          · next hq =>
            rw [Option.map_eq_some'] at heq
            obtain ⟨r', hr', rfl⟩ := heq
            exact List.Forall₂.cons ⟨rfl, by omega⟩ (ih _ _ _ _ hr')
          · rw [Option.map_eq_some'] at heq
            obtain ⟨r', hr', rfl⟩ := heq
            exact List.Forall₂.cons ⟨rfl, le_refl _⟩ (ih _ _ _ _ hr')

/-- A round conserves LP and cargo: whatever leaves a budget shows up in the
allocation sums. -/
theorem divRound_conserve (md bd : ℚ) (l : List (ItemAnalysis × ℤ)) :
    ∀ (lp : ℤ) (cargo : ℚ) (made : Bool) r,
      divRound md bd l lp cargo made = some r →
      r.2.1 + allocSumLP r.1 = lp + allocSumLP l ∧
      r.2.2.1 + allocSumVol r.1 = cargo + allocSumVol l := by
  induction l with
  | nil =>
    intro lp cargo made r heq
    rw [divRound, Option.some.injEq] at heq
    subst heq
    exact ⟨rfl, rfl⟩
  | cons x rest ih =>
    obtain ⟨a, q⟩ := x
    intro lp cargo made r heq
    rw [divRound] at heq
    split at heq
    · rw [Option.some.injEq] at heq
      subst heq
      exact ⟨rfl, rfl⟩
    · split at heq
      · rw [Option.map_eq_some'] at heq
        obtain ⟨r', hr', rfl⟩ := heq
        have := ih _ _ _ _ hr'
        constructor
        · simp only [allocSumLP_cons]
          omega
        · simp only [allocSumVol_cons]
          linarith [this.2]
      · split at heq
        · exact absurd heq (by simp)
        · split at heq
          · rw [Option.map_eq_some'] at heq
            obtain ⟨r', hr', rfl⟩ := heq
            have := ih _ _ _ _ hr'
            constructor
            · simp only [allocSumLP_cons] at this ⊢
              have hmul : (q + divQuantity md bd a q lp cargo) * a.item.lp_cost =
                  q * a.item.lp_cost +
                    divQuantity md bd a q lp cargo * a.item.lp_cost := by ring
              omega
            · simp only [allocSumVol_cons] at this ⊢
              push_cast
              have hmul : ((q : ℚ) + (divQuantity md bd a q lp cargo : ℚ)) *
                    a.item.volume_per_purchase =
                  (q : ℚ) * a.item.volume_per_purchase +
                    (divQuantity md bd a q lp cargo : ℚ) *
                      a.item.volume_per_purchase := by ring
              linarith [this.2]
          · rw [Option.map_eq_some'] at heq
            obtain ⟨r', hr', rfl⟩ := heq
            have := ih _ _ _ _ hr'
            constructor
            · simp only [allocSumLP_cons]
              omega
            · simp only [allocSumVol_cons]
              linarith [this.2]

/-- Positive remaining headroom is exactly liquidity cap minus current
quantity, for liquid and illiquid candidates alike. -/
theorem batchInfo_snd_eq (md bd : ℚ) (a : ItemAnalysis) (q : ℤ)
    (h : 0 < (batchInfo md bd a q).2) :
    (batchInfo md bd a q).2 = liquidityCap md a - q := by
  by_cases hd : 0 < a.daily_volume_purchases
  · exact batchInfo_snd_pos md bd a q hd h
  · rw [batchInfo_snd_nonpos_dvp md bd a q hd]
    simp [liquidityCap, if_neg hd]

/-- A round keeps both remaining budgets nonnegative. -/
theorem divRound_nonneg (md bd : ℚ) (l : List (ItemAnalysis × ℤ)) :
    ∀ (lp : ℤ) (cargo : ℚ) (made : Bool) r,
      (∀ x ∈ l, 0 < x.1.item.lp_cost ∧ 0 < x.1.item.volume_per_purchase) →
      0 ≤ lp → 0 ≤ cargo →
      divRound md bd l lp cargo made = some r →
      0 ≤ r.2.1 ∧ 0 ≤ r.2.2.1 := by
  induction l with
  | nil =>
    intro lp cargo made r _ hlp hc heq
    rw [divRound, Option.some.injEq] at heq
    subst heq
    exact ⟨hlp, hc⟩
  | cons x rest ih =>
    obtain ⟨a, q⟩ := x
    intro lp cargo made r hinv hlp hc heq
    have ha : 0 < a.item.lp_cost ∧ 0 < a.item.volume_per_purchase :=
      hinv (a, q) (by simp)
    have hrest := fun y hy => hinv y (List.mem_cons_of_mem _ hy)
    rw [divRound] at heq
    split at heq
    · rw [Option.some.injEq] at heq
      subst heq
      exact ⟨hlp, hc⟩
    · split at heq
      · rw [Option.map_eq_some'] at heq
        obtain ⟨r', hr', rfl⟩ := heq
        exact ih _ _ _ r' hrest hlp hc hr'
      · split at heq
        · exact absurd heq (by simp)
        · split at heq
          · rw [Option.map_eq_some'] at heq
            obtain ⟨r', hr', rfl⟩ := heq
            have h1 : divQuantity md bd a q lp cargo * a.item.lp_cost ≤ lp :=
              mul_le_of_le_fdiv ha.1 (divQuantity_le_fdiv md bd a q lp cargo)
            have h2 : (divQuantity md bd a q lp cargo : ℚ) *
                a.item.volume_per_purchase ≤ cargo :=
              mul_le_of_le_floor ha.2 (divQuantity_le_floor md bd a q lp cargo)
            exact ih _ _ _ r' hrest (by omega) (by linarith) hr'
          · rw [Option.map_eq_some'] at heq
            obtain ⟨r', hr', rfl⟩ := heq
            exact ih _ _ _ r' hrest hlp hc hr'

/-- A round never hits its division-by-zero branch when every candidate has
nonzero lot cost and volume. -/
theorem divRound_isSome (md bd : ℚ) (l : List (ItemAnalysis × ℤ)) :
    ∀ (lp : ℤ) (cargo : ℚ) (made : Bool),
      (∀ x ∈ l, x.1.item.lp_cost ≠ 0 ∧ x.1.item.volume_per_purchase ≠ 0) →
      (divRound md bd l lp cargo made).isSome = true := by
  induction l with
  | nil => intro lp cargo made _; simp [divRound]
  | cons x rest ih =>
    obtain ⟨a, q⟩ := x
    intro lp cargo made hinv
    have ha := hinv (a, q) (by simp)
    have hrest := fun y hy => hinv y (List.mem_cons_of_mem _ hy)
    rw [divRound]
    split
    · simp
    · split
      · simpa using ih _ _ _ hrest
      · rw [if_neg (by simp [ha.1, ha.2])]
        split
        · simpa using ih _ _ _ hrest
        · simpa using ih _ _ _ hrest

/-- A round never increases the headroom measure, and strictly decreases it
whenever it sets the `allocation_made` flag. -/
theorem divRound_measure (md bd : ℚ) (l : List (ItemAnalysis × ℤ)) :
    ∀ (lp : ℤ) (cargo : ℚ) (made : Bool) r,
      divRound md bd l lp cargo made = some r →
      divMeasure md r.1 ≤ divMeasure md l ∧
        (made = false → r.2.2.2 = true → divMeasure md r.1 < divMeasure md l) := by
  induction l with
  | nil =>
    intro lp cargo made r heq
    rw [divRound, Option.some.injEq] at heq
    subst heq
    refine ⟨le_refl _, fun h1 h2 => ?_⟩
    rw [h1] at h2
    exact absurd h2 (by simp)
  | cons x rest ih =>
    obtain ⟨a, q⟩ := x
    intro lp cargo made r heq
    rw [divRound] at heq
    split at heq
    · rw [Option.some.injEq] at heq
      subst heq
      refine ⟨le_refl _, fun h1 h2 => ?_⟩
      rw [h1] at h2
      exact absurd h2 (by simp)
    · split at heq
      · rw [Option.map_eq_some'] at heq
        obtain ⟨r', hr', rfl⟩ := heq
        have hih := ih _ _ _ _ hr'
        simp only [divMeasure_cons]
        exact ⟨by omega, fun h1 h2 => by have := hih.2 h1 h2; omega⟩
      · split at heq
        · exact absurd heq (by simp)
        · split at heq
          · next hrfi hq =>
            rw [Option.map_eq_some'] at heq
            obtain ⟨r', hr', rfl⟩ := heq
            have hih := (ih _ _ _ _ hr').1
            have hsnd : 0 < (batchInfo md bd a q).2 := by omega
            have hcapq : (batchInfo md bd a q).2 = liquidityCap md a - q :=
              batchInfo_snd_eq md bd a q hsnd
            have hdle : divQuantity md bd a q lp cargo ≤ (batchInfo md bd a q).2 :=
              le_trans (divQuantity_le_batch md bd a q lp cargo)
                (batchInfo_fst_le_snd md bd a q hsnd)
            simp only [divMeasure_cons]
            constructor
            · have : (liquidityCap md a - (q + divQuantity md bd a q lp cargo)).toNat <
                  (liquidityCap md a - q).toNat := by omega
              omega
            · intro _ _
              have : (liquidityCap md a - (q + divQuantity md bd a q lp cargo)).toNat <
                  (liquidityCap md a - q).toNat := by omega
              omega
          · rw [Option.map_eq_some'] at heq
            obtain ⟨r', hr', rfl⟩ := heq
            have hih := ih _ _ _ _ hr'
            simp only [divMeasure_cons]
            exact ⟨by omega, fun h1 h2 => by have := hih.2 h1 h2; omega⟩

/-- A round never increases the remaining LP, and strictly decreases it when
it sets the `allocation_made` flag (all lot costs positive). -/
theorem divRound_lp (md bd : ℚ) (l : List (ItemAnalysis × ℤ)) :
    ∀ (lp : ℤ) (cargo : ℚ) (made : Bool) r,
      (∀ x ∈ l, 0 < x.1.item.lp_cost) →
      divRound md bd l lp cargo made = some r →
      r.2.1 ≤ lp ∧ (made = false → r.2.2.2 = true → r.2.1 < lp) := by
  induction l with
  | nil =>
    intro lp cargo made r _ heq
    rw [divRound, Option.some.injEq] at heq
    subst heq
    refine ⟨le_refl _, fun h1 h2 => ?_⟩
    rw [h1] at h2
    exact absurd h2 (by simp)
  | cons x rest ih =>
    obtain ⟨a, q⟩ := x
    intro lp cargo made r hinv heq
    have ha : 0 < a.item.lp_cost := hinv (a, q) (by simp)
    have hrest := fun y hy => hinv y (List.mem_cons_of_mem _ hy)
    rw [divRound] at heq
    split at heq
    · rw [Option.some.injEq] at heq
      subst heq
      refine ⟨le_refl _, fun h1 h2 => ?_⟩
      rw [h1] at h2
      exact absurd h2 (by simp)
    · split at heq
      · rw [Option.map_eq_some'] at heq
        obtain ⟨r', hr', rfl⟩ := heq
        exact ih _ _ _ r' hrest hr'
      · split at heq
        · exact absurd heq (by simp)
        · split at heq
          · next hq =>
            rw [Option.map_eq_some'] at heq
            obtain ⟨r', hr', rfl⟩ := heq
            have hih := (ih _ _ _ r' hrest hr').1
            have hpos : 0 < divQuantity md bd a q lp cargo * a.item.lp_cost :=
              mul_pos hq ha
            constructor
            · show r'.2.1 ≤ lp
              omega
            · intro _ _
              show r'.2.1 < lp
              omega
          · rw [Option.map_eq_some'] at heq
            obtain ⟨r', hr', rfl⟩ := heq
            exact ih _ _ _ r' hrest hr'

/-- A round preserves the per-candidate liquidity-cap bound. -/
theorem divRound_cap (md bd : ℚ) (hmd : 0 ≤ md) (l : List (ItemAnalysis × ℤ)) :
    ∀ (lp : ℤ) (cargo : ℚ) (made : Bool) r,
      (∀ x ∈ l, capProp md x) →
      divRound md bd l lp cargo made = some r →
      ∀ x ∈ r.1, capProp md x := by
  induction l with
  | nil =>
    intro lp cargo made r _ heq
    rw [divRound, Option.some.injEq] at heq
    subst heq
    intro x hx
    exact absurd hx (by simp)
  | cons x rest ih =>
    obtain ⟨a, q⟩ := x
    intro lp cargo made r hinv heq
    have ha := hinv (a, q) (by simp)
    have hrest := fun y hy => hinv y (List.mem_cons_of_mem _ hy)
    rw [divRound] at heq
    split at heq
    · rw [Option.some.injEq] at heq
      subst heq
      exact hinv
    · split at heq
      · rw [Option.map_eq_some'] at heq
        obtain ⟨r', hr', rfl⟩ := heq
        intro x hx
        rcases List.mem_cons.mp hx with rfl | hx'
        · exact ha
        · exact ih _ _ _ _ hrest hr' x hx'
      · split at heq
        · exact absurd heq (by simp)
        · split at heq
          · next hrfi hq =>
            rw [Option.map_eq_some'] at heq
            obtain ⟨r', hr', rfl⟩ := heq
            have hsnd : 0 < (batchInfo md bd a q).2 := by omega
            have hcapq : (batchInfo md bd a q).2 = liquidityCap md a - q :=
              batchInfo_snd_eq md bd a q hsnd
            have hdle : divQuantity md bd a q lp cargo ≤ (batchInfo md bd a q).2 :=
              le_trans (divQuantity_le_batch md bd a q lp cargo)
                (batchInfo_fst_le_snd md bd a q hsnd)
            intro x hx
            rcases List.mem_cons.mp hx with rfl | hx'
            · constructor
              · intro hdv
                have hcap : liquidityCap md a =
                    ⌊a.daily_volume_purchases * md⌋ := by
                  rw [liquidityCap, if_pos hdv,
                    pyInt_eq_floor (mul_nonneg hdv.le hmd)]
                simp only
                omega
              · intro hdv0
                have hcap : liquidityCap md a = 1 := by
                  rw [liquidityCap, if_neg (by rw [hdv0]; exact lt_irrefl 0)]
                simp only
                omega
            · exact ih _ _ _ _ hrest hr' x hx'
          · rw [Option.map_eq_some'] at heq
            obtain ⟨r', hr', rfl⟩ := heq
            intro x hx
            rcases List.mem_cons.mp hx with rfl | hx'
            · exact ha
            · exact ih _ _ _ _ hrest hr' x hx'

/-- The un-clamped per-round batch is at least one lot. -/
theorem one_le_roundBatchBound (bd : ℚ) (a : ItemAnalysis) :
    1 ≤ roundBatchBound bd a :=
  le_max_left 1 _

/-- With positive headroom, the committed batch is at least one lot. -/
theorem batchInfo_one_le_fst (md bd : ℚ) (a : ItemAnalysis) (q : ℤ)
    (h : 0 < (batchInfo md bd a q).2) : 1 ≤ (batchInfo md bd a q).1 := by
  by_cases hd : 0 < a.daily_volume_purchases
  · simp only [batchInfo, if_pos hd] at h ⊢
    exact le_min (le_max_left 1 _) (by omega)
  · simp [batchInfo, if_neg hd]

/-- `lpNeed` unfolds one entry. -/
theorem lpNeed_cons (bd : ℚ) (a : ItemAnalysis) (l : List ItemAnalysis) :
    lpNeed bd (a :: l) =
      (roundBatchBound bd a + 1) * a.item.lp_cost + lpNeed bd l := by
  simp [lpNeed]

/-- `volNeed` unfolds one entry. -/
theorem volNeed_cons (bd : ℚ) (a : ItemAnalysis) (l : List ItemAnalysis) :
    volNeed bd (a :: l) =
      ((roundBatchBound bd a : ℚ) + 1) * a.item.volume_per_purchase +
        volNeed bd l := by
  simp [volNeed]

/-- `lpNeed` is nonnegative on candidates with positive lot cost. -/
theorem lpNeed_nonneg (bd : ℚ) (l : List ItemAnalysis)
    (h : ∀ a ∈ l, 0 < a.item.lp_cost) : 0 ≤ lpNeed bd l := by
  induction l with
  | nil => simp [lpNeed]
  | cons a rest ih =>
    rw [lpNeed_cons]
    have h1 := h a (by simp)
    have h2 := ih (fun b hb => h b (by simp [hb]))
    have h3 := one_le_roundBatchBound bd a
    nlinarith

/-- `volNeed` is nonnegative on candidates with positive lot volume. -/
theorem volNeed_nonneg (bd : ℚ) (l : List ItemAnalysis)
    (h : ∀ a ∈ l, 0 < a.item.volume_per_purchase) : 0 ≤ volNeed bd l := by
  induction l with
  | nil => simp [volNeed]
  | cons a rest ih =>
    rw [volNeed_cons]
    have h1 := h a (by simp)
    have h2 := ih (fun b hb => h b (by simp [hb]))
    have h3 := one_le_roundBatchBound bd a
    have h4 : (1 : ℚ) ≤ (roundBatchBound bd a : ℚ) := by exact_mod_cast h3
    nlinarith

/-- First-round abundance: when both budgets cover a full batch plus one lot
of every candidate, the round allocates at least one lot to every candidate
whose liquidity cap is at least 1. -/
theorem divRound_roundone (md bd : ℚ) (l : List (ItemAnalysis × ℤ)) :
    ∀ (lp : ℤ) (cargo : ℚ) (made : Bool) r,
      (∀ x ∈ l, 0 < x.1.item.lp_cost ∧ 0 < x.1.item.volume_per_purchase) →
      (∀ x ∈ l, x.2 = 0) →
      lpNeed bd (l.map Prod.fst) ≤ lp →
      volNeed bd (l.map Prod.fst) ≤ cargo →
      divRound md bd l lp cargo made = some r →
      List.Forall₂
        (fun x y => x.1 = y.1 ∧ (1 ≤ liquidityCap md x.1 → 1 ≤ y.2)) l r.1 := by
  induction l with
  | nil =>
    intro lp cargo made r _ _ _ _ heq
    rw [divRound, Option.some.injEq] at heq
    subst heq
    exact List.Forall₂.nil
  | cons x rest ih =>
    obtain ⟨a, q⟩ := x
    intro lp cargo made r hinv hq0 hlp hcargo heq
    have ha : 0 < a.item.lp_cost ∧ 0 < a.item.volume_per_purchase :=
      hinv (a, q) (by simp)
    have hrest := fun y hy => hinv y (List.mem_cons_of_mem _ hy)
    have hrest0 := fun y hy => hq0 y (List.mem_cons_of_mem _ hy)
    have hq : q = 0 := hq0 (a, q) (by simp)
    subst hq
    have hBB := one_le_roundBatchBound bd a
    have hlpneed0 : 0 ≤ lpNeed bd (rest.map Prod.fst) :=
      lpNeed_nonneg bd _ (by
        intro b hb
        obtain ⟨y, hy, rfl⟩ := List.mem_map.mp hb
        exact (hrest y hy).1)
    have hvolneed0 : 0 ≤ volNeed bd (rest.map Prod.fst) :=
      volNeed_nonneg bd _ (by
        intro b hb
        obtain ⟨y, hy, rfl⟩ := List.mem_map.mp hb
        exact (hrest y hy).2)
    simp only [List.map_cons, lpNeed_cons] at hlp
    simp only [List.map_cons, volNeed_cons] at hcargo
    have hterm : 2 ≤ (roundBatchBound bd a + 1) * a.item.lp_cost := by
      have := mul_le_mul (le_refl (roundBatchBound bd a + 1)) ha.1 (by omega) (by omega)
      nlinarith [ha.1, hBB]
    have hBBQ : (1 : ℚ) ≤ (roundBatchBound bd a : ℚ) := by exact_mod_cast hBB
    have htermQ : 0 < ((roundBatchBound bd a : ℚ) + 1) * a.item.volume_per_purchase := by
      nlinarith [ha.2]
    have hlp_pos : 0 < lp := by omega
    have hcargo_pos : 0 < cargo := by nlinarith
    rw [divRound] at heq
    split at heq
    · next hbr =>
      exact absurd hbr (by push_neg; exact ⟨hlp_pos, hcargo_pos⟩)
    · split at heq
      · next hrfi =>
        rw [Option.map_eq_some'] at heq
        obtain ⟨r', hr', rfl⟩ := heq
        have hcapa : ¬1 ≤ liquidityCap md a := by
          by_cases hd : 0 < a.daily_volume_purchases
          · have h1 : (batchInfo md bd a 0).2 =
                max 0 (pyInt (a.daily_volume_purchases * md) - 0) := by
              simp [batchInfo, if_pos hd]
            rw [liquidityCap, if_pos hd]
            omega
          · exfalso
            rw [batchInfo_snd_nonpos_dvp md bd a 0 hd] at hrfi
            omega
        refine List.Forall₂.cons ⟨rfl, fun hcap => absurd hcap hcapa⟩ ?_
        exact ih _ _ _ r' hrest hrest0 (by omega) (by linarith) hr'
      · next hrfi =>
        split at heq
        · exact absurd heq (by simp)
        · split at heq
          · next hqpos =>
            rw [Option.map_eq_some'] at heq
            obtain ⟨r', hr', rfl⟩ := heq
            have hd_le : divQuantity md bd a 0 lp cargo ≤ roundBatchBound bd a :=
              le_trans (divQuantity_le_batch md bd a 0 lp cargo)
                (batchInfo_fst_le_bound md bd a 0)
            have hdcost : divQuantity md bd a 0 lp cargo * a.item.lp_cost ≤
                roundBatchBound bd a * a.item.lp_cost :=
              mul_le_mul_of_nonneg_right hd_le ha.1.le
            have hdvol : (divQuantity md bd a 0 lp cargo : ℚ) *
                a.item.volume_per_purchase ≤
                (roundBatchBound bd a : ℚ) * a.item.volume_per_purchase := by
              have : (divQuantity md bd a 0 lp cargo : ℚ) ≤
                  (roundBatchBound bd a : ℚ) := by exact_mod_cast hd_le
              exact mul_le_mul_of_nonneg_right this ha.2.le
            refine List.Forall₂.cons ⟨rfl, fun _ => by omega⟩ ?_
            refine ih _ _ _ r' hrest hrest0 ?_ ?_ hr'
            · nlinarith
            · nlinarith
          · next hqneg =>
            exfalso
            have hsnd : 0 < (batchInfo md bd a 0).2 := by omega
            have h1 : 1 ≤ (batchInfo md bd a 0).1 :=
              batchInfo_one_le_fst md bd a 0 hsnd
            have h2 : 1 ≤ Int.fdiv lp a.item.lp_cost :=
              one_le_fdiv ha.1 (by nlinarith)
            have h3 : 1 ≤ ⌊cargo / a.item.volume_per_purchase⌋ :=
              one_le_floor_div ha.2 (by nlinarith)
            have : 1 ≤ divQuantity md bd a 0 lp cargo :=
              le_min (le_min h1 h2) h3
            omega

/-- Composition of two pointwise list relations. -/
theorem forall2_comp {α β γ : Type} {P : α → β → Prop} {Q : β → γ → Prop}
    {S : α → γ → Prop} (h : ∀ a b c, P a b → Q b c → S a c) :
    ∀ {l : List α} {m : List β} {n : List γ},
      List.Forall₂ P l m → List.Forall₂ Q m n → List.Forall₂ S l n := by
  intro l m n h1
  induction h1 generalizing n with
  | nil =>
    intro h2
    cases h2
    exact List.Forall₂.nil
  | cons hab htl ih =>
    intro h2
    cases h2 with
    | cons hbc htl2 => exact List.Forall₂.cons (h _ _ _ hab hbc) (ih htl2)

/-- Every element of the right list of a `Forall₂` is related to some element
of the left list. -/
theorem forall2_mem_right {α β : Type} {R : α → β → Prop} :
    ∀ {l : List α} {m : List β}, List.Forall₂ R l m →
      ∀ y ∈ m, ∃ x ∈ l, R x y := by
  intro l m h
  induction h with
  | nil => intro y hy; exact absurd hy (by simp)
  | cons hab htl ih =>
    intro y hy
    rcases List.mem_cons.mp hy with rfl | hy'
    · exact ⟨_, by simp, hab⟩
    · obtain ⟨x, hx, hr⟩ := ih y hy'
      exact ⟨x, by simp [hx], hr⟩

/-- Every element of the left list of a `Forall₂` is related to some element
of the right list. -/
theorem forall2_mem_left {α β : Type} {R : α → β → Prop} :
    ∀ {l : List α} {m : List β}, List.Forall₂ R l m →
      ∀ x ∈ l, ∃ y ∈ m, R x y := by
  intro l m h
  induction h with
  | nil => intro x hx; exact absurd hx (by simp)
  | cons hab htl ih =>
    intro x hx
    rcases List.mem_cons.mp hx with rfl | hx'
    · exact ⟨_, by simp, hab⟩
    · obtain ⟨y, hy, hr⟩ := ih x hx'
      exact ⟨y, by simp [hy], hr⟩

/-- A predicate on the analyses of the entries survives a round. -/
theorem divRound_inv_transfer {P : ItemAnalysis → Prop} (md bd : ℚ)
    {l : List (ItemAnalysis × ℤ)} {lp : ℤ} {cargo : ℚ} {made : Bool}
    {r : List (ItemAnalysis × ℤ) × ℤ × ℚ × Bool}
    (h : divRound md bd l lp cargo made = some r)
    (hinv : ∀ x ∈ l, P x.1) : ∀ y ∈ r.1, P y.1 := by
  intro y hy
  obtain ⟨x, hx, hxy⟩ :=
    forall2_mem_right (divRound_forall2 md bd l lp cargo made r h) y hy
  exact hxy.1 ▸ hinv x hx

/-- The round loop preserves candidates and never decreases a quantity. -/
theorem divLoopFuel_forall2 (md bd : ℚ) :
    ∀ (n : ℕ) (l : List (ItemAnalysis × ℤ)) (lp : ℤ) (cargo : ℚ) (made : Bool)
      out,
      divLoopFuel md bd n l lp cargo made = some out →
      List.Forall₂ (fun x y => x.1 = y.1 ∧ x.2 ≤ y.2) l out := by
  intro n
  induction n with
  | zero =>
    intro l lp c m out heq
    exact absurd heq (by simp [divLoopFuel])
  | succ n ih =>
    intro l lp c m out heq
    rw [divLoopFuel] at heq
    split at heq
    · split at heq
      · exact absurd heq (by simp)
      · next al' lp' c' made' hround =>
        refine forall2_comp
          (P := fun (x y : ItemAnalysis × ℤ) => x.1 = y.1 ∧ x.2 ≤ y.2)
          (Q := fun (x y : ItemAnalysis × ℤ) => x.1 = y.1 ∧ x.2 ≤ y.2) ?_
          (divRound_forall2 md bd l lp c false _ hround) (ih _ _ _ _ _ heq)
        rintro a b cc ⟨h1, h2⟩ ⟨h3, h4⟩
        exact ⟨h1.trans h3, h2.trans h4⟩
    · rw [Option.some.injEq] at heq
      subst heq
      exact List.forall₂_same.mpr (fun x _ => ⟨rfl, le_refl _⟩)

/-- The round loop consumes at most the budgets it is given. -/
theorem divLoopFuel_conserve (md bd : ℚ) :
    ∀ (n : ℕ) (l : List (ItemAnalysis × ℤ)) (lp : ℤ) (cargo : ℚ) (made : Bool)
      out,
      (∀ x ∈ l, 0 < x.1.item.lp_cost ∧ 0 < x.1.item.volume_per_purchase) →
      0 ≤ lp → 0 ≤ cargo →
      divLoopFuel md bd n l lp cargo made = some out →
      allocSumLP out ≤ lp + allocSumLP l ∧
        allocSumVol out ≤ cargo + allocSumVol l := by
  intro n
  induction n with
  | zero =>
    intro l lp c m out _ _ _ heq
    exact absurd heq (by simp [divLoopFuel])
  | succ n ih =>
    intro l lp c m out hinv hlp hc heq
    rw [divLoopFuel] at heq
    split at heq
    · split at heq
      · exact absurd heq (by simp)
      · next al' lp' c' made' hround =>
        have hcons := divRound_conserve md bd l lp c false _ hround
        have hnn := divRound_nonneg md bd l lp c false _ hinv hlp hc hround
        have hinv' : ∀ y ∈ al', 0 < y.1.item.lp_cost ∧
            0 < y.1.item.volume_per_purchase :=
          divRound_inv_transfer
            (P := fun a => 0 < a.item.lp_cost ∧ 0 < a.item.volume_per_purchase)
            md bd hround hinv
        have hih := ih al' lp' c' made' out hinv' hnn.1 hnn.2 heq
        have h1 := hcons.1
        have h2 := hcons.2
        simp only at h1 h2
        constructor
        · omega
        · linarith [hih.2]
    · rw [Option.some.injEq] at heq
      subst heq
      constructor
      · omega
      · linarith

/-- The round loop preserves the per-candidate liquidity-cap bound. -/
theorem divLoopFuel_cap (md bd : ℚ) (hmd : 0 ≤ md) :
    ∀ (n : ℕ) (l : List (ItemAnalysis × ℤ)) (lp : ℤ) (cargo : ℚ) (made : Bool)
      out,
      (∀ x ∈ l, capProp md x) →
      divLoopFuel md bd n l lp cargo made = some out →
      ∀ x ∈ out, capProp md x := by
  intro n
  induction n with
  | zero =>
    intro l lp c m out _ heq
    exact absurd heq (by simp [divLoopFuel])
  | succ n ih =>
    intro l lp c m out hcap heq
    rw [divLoopFuel] at heq
    split at heq
    · split at heq
      · exact absurd heq (by simp)
      · next al' lp' c' made' hround =>
        exact ih al' lp' c' made' out
          (divRound_cap md bd hmd l lp c false _ hcap hround) heq
    · rw [Option.some.injEq] at heq
      subst heq
      exact hcap

/-- The round loop stabilizes: any two fuels at least two above the headroom
measure produce identical results — the `while` loop terminates. -/
theorem divLoopFuel_stab (md bd : ℚ) :
    ∀ (k : ℕ) (l : List (ItemAnalysis × ℤ)) (lp : ℤ) (cargo : ℚ) (made : Bool)
      (n m : ℕ),
      divMeasure md l = k → k + 2 ≤ n → k + 2 ≤ m →
      divLoopFuel md bd n l lp cargo made =
        divLoopFuel md bd m l lp cargo made := by
  intro k
  induction k using Nat.strong_induction_on with
  | _ k ih =>
    intro l lp cargo made n m hk hn hm
    obtain ⟨n', rfl⟩ : ∃ t, n = t + 1 := ⟨n - 1, by omega⟩
    obtain ⟨m', rfl⟩ : ∃ t, m = t + 1 := ⟨m - 1, by omega⟩
    rw [divLoopFuel, divLoopFuel]
    split
    · cases hr : divRound md bd l lp cargo false with
      | none => rfl
      | some r =>
        obtain ⟨al', lp', c', made'⟩ := r
        have hms := divRound_measure md bd l lp cargo false _ hr
        show divLoopFuel md bd n' al' lp' c' made' =
          divLoopFuel md bd m' al' lp' c' made'
        cases made' with
        | true =>
          have hlt : divMeasure md al' < k := by
            have := hms.2 rfl rfl
            simp only at this
            omega
          exact ih _ hlt al' lp' c' true n' m' rfl (by omega) (by omega)
        | false =>
          obtain ⟨n'', rfl⟩ : ∃ t, n' = t + 1 := ⟨n' - 1, by omega⟩
          obtain ⟨m'', rfl⟩ : ∃ t, m' = t + 1 := ⟨m' - 1, by omega⟩
          rw [divLoopFuel, divLoopFuel]
          simp
    · rfl

/-- With every lot cost and volume nonzero, the round loop at fuel
`divMeasure + 2` completes with a result. -/
theorem divLoopFuel_isSome (md bd : ℚ) :
    ∀ (k : ℕ) (l : List (ItemAnalysis × ℤ)) (lp : ℤ) (cargo : ℚ) (made : Bool),
      divMeasure md l = k →
      (∀ x ∈ l, x.1.item.lp_cost ≠ 0 ∧ x.1.item.volume_per_purchase ≠ 0) →
      (divLoopFuel md bd (k + 2) l lp cargo made).isSome = true := by
  intro k
  induction k using Nat.strong_induction_on with
  | _ k ih =>
    intro l lp cargo made hk hinv
    have hk2 : k + 2 = (k + 1) + 1 := rfl
    rw [hk2, divLoopFuel]
    split
    · cases hr : divRound md bd l lp cargo false with
      | none =>
        have := divRound_isSome md bd l lp cargo false hinv
        rw [hr] at this
        exact absurd this (by simp)
      | some r =>
        obtain ⟨al', lp', c', made'⟩ := r
        show (divLoopFuel md bd (k + 1) al' lp' c' made').isSome = true
        have hinv' : ∀ y ∈ al', y.1.item.lp_cost ≠ 0 ∧
            y.1.item.volume_per_purchase ≠ 0 :=
          divRound_inv_transfer
            (P := fun a => a.item.lp_cost ≠ 0 ∧ a.item.volume_per_purchase ≠ 0)
            md bd hr hinv
        have hms := divRound_measure md bd l lp cargo false _ hr
        cases made' with
        | false =>
          rw [divLoopFuel]
          simp
        | true =>
          have hlt : divMeasure md al' < k := by
            have := hms.2 rfl rfl
            simp only at this
            omega
          have hbase := ih (divMeasure md al') hlt al' lp' c' true rfl hinv'
          rw [divLoopFuel_stab md bd (divMeasure md al') al' lp' c' true
            (k + 1) (divMeasure md al' + 2) rfl (by omega) (by omega)]
          exact hbase
    · simp

/-- Initial allocations carry zero LP cost. -/
theorem allocSumLP_init (l : List ItemAnalysis) :
    allocSumLP (l.map (fun a => (a, (0 : ℤ)))) = 0 := by
  induction l with
  | nil => rfl
  | cons a rest ih => simp [allocSumLP_cons, ih]

/-- Initial allocations occupy zero volume. -/
theorem allocSumVol_init (l : List ItemAnalysis) :
    allocSumVol (l.map (fun a => (a, (0 : ℤ)))) = 0 := by
  induction l with
  | nil => rfl
  | cons a rest ih => simp [allocSumVol_cons, ih]

/-- Dropping nonpositive-quantity entries does not change the LP sum when all
quantities are nonnegative. -/
theorem allocSumLP_filter (al : List (ItemAnalysis × ℤ))
    (h : ∀ x ∈ al, 0 ≤ x.2) :
    allocSumLP (al.filter (fun x => decide (0 < x.2))) = allocSumLP al := by
  induction al with
  | nil => rfl
  | cons x rest ih =>
    have hx := h x (by simp)
    have hr := ih (fun y hy => h y (by simp [hy]))
    by_cases hq : 0 < x.2
    · rw [List.filter_cons_of_pos (by simpa using hq), allocSumLP_cons,
        allocSumLP_cons, hr]
    · rw [List.filter_cons_of_neg (by simpa using hq), allocSumLP_cons, hr]
      have hz : x.2 = 0 := le_antisymm (not_lt.mp hq) hx
      rw [hz]
      ring

/-- Dropping nonpositive-quantity entries does not change the volume sum when
all quantities are nonnegative. -/
theorem allocSumVol_filter (al : List (ItemAnalysis × ℤ))
    (h : ∀ x ∈ al, 0 ≤ x.2) :
    allocSumVol (al.filter (fun x => decide (0 < x.2))) = allocSumVol al := by
  induction al with
  | nil => rfl
  | cons x rest ih =>
    have hx := h x (by simp)
    have hr := ih (fun y hy => h y (by simp [hy]))
    by_cases hq : 0 < x.2
    · rw [List.filter_cons_of_pos (by simpa using hq), allocSumVol_cons,
        allocSumVol_cons, hr]
    · rw [List.filter_cons_of_neg (by simpa using hq), allocSumVol_cons, hr]
      have hz : x.2 = 0 := le_antisymm (not_lt.mp hq) hx
      rw [hz]
      push_cast
      ring

/-- **C1**: For every candidate list, every positive LP budget and cargo
budget, and every configuration, both allocation strategies return a plan
whose totals respect both budgets: `Σ quantity × lp_cost ≤ available LP` and
`Σ quantity × volume_per_purchase ≤ cargo capacity`. -/
theorem allocation_respects_budgets (viable : List ItemAnalysis) (lp : ℤ)
    (cargo md bd : ℚ)
    (hinv : ∀ a ∈ viable, 0 < a.item.lp_cost ∧ 0 < a.item.volume_per_purchase)
    (hlp : 0 < lp) (hcargo : 0 < cargo) :
    (∀ out, _greedy_allocation viable lp cargo md = some out →
      allocSumLP out ≤ lp ∧ allocSumVol out ≤ cargo) ∧
    (∀ out, _diversified_allocation viable lp cargo md bd = some out →
      allocSumLP out ≤ lp ∧ allocSumVol out ≤ cargo) := by
  constructor
  · intro out heq
    exact greedy_bounds viable lp cargo md out hinv hlp.le hcargo.le heq
  · intro out heq
    unfold _diversified_allocation at heq
    rw [Option.map_eq_some'] at heq
    obtain ⟨al, hal, rfl⟩ := heq
    have hinv0 : ∀ x ∈ viable.map (fun a => (a, (0 : ℤ))),
        0 < x.1.item.lp_cost ∧ 0 < x.1.item.volume_per_purchase := by
      intro x hx
      obtain ⟨a, ha, rfl⟩ := List.mem_map.mp hx
      exact hinv a ha
    have hc := divLoopFuel_conserve md bd _ _ lp cargo true al hinv0
      hlp.le hcargo.le hal
    have hqnn : ∀ x ∈ al, 0 ≤ x.2 := by
      intro x hx
      obtain ⟨y, hy, hr⟩ :=
        forall2_mem_right (divLoopFuel_forall2 md bd _ _ lp cargo true al hal) x hx
      obtain ⟨a, ha, rfl⟩ := List.mem_map.mp hy
      exact hr.2
    rw [allocSumLP_filter al hqnn, allocSumVol_filter al hqnn]
    rw [allocSumLP_init, allocSumVol_init] at hc
    constructor
    · omega
    · linarith [hc.2]

/-- Witness for C1 at a concrete scenario. -/
theorem allocation_respects_budgets_witness :
    allocSumLP [(exA, 2)] ≤ 2 ∧ allocSumVol [(exA, 2)] ≤ 10 :=
  (allocation_respects_budgets [exA, exB] 2 10 14 4 (by decide) (by decide)
    (by decide)).1 [(exA, 2)] (by decide)

/-- **C2**: The greedy strategy allocates to each candidate exactly
`min(floor(remaining LP / lp-cost), floor(remaining cargo / volume-per-lot),
max(1, floor(daily-lot-absorption × max-days-to-sell)))` — with 1 in place of
the floor when daily-lot-absorption is 0 — skips (without stopping) any
candidate for which this is 0, otherwise deducts the consumed LP and cargo
and continues, and stops when a budget is exhausted or candidates run out. -/
theorem greedy_step_characterization (a : ItemAnalysis)
    (rest : List ItemAnalysis) (lp : ℤ) (cargo md : ℚ)
    (hdvp : 0 ≤ a.daily_volume_purchases)
    (hcost : 0 < a.item.lp_cost) (hvol : 0 < a.item.volume_per_purchase) :
    specGreedyQuantity a lp cargo md = greedyQuantity a lp cargo md ∧
    (lp ≤ 0 ∨ cargo ≤ 0 →
      _greedy_allocation (a :: rest) lp cargo md = some []) ∧
    (0 < lp → 0 < cargo → specGreedyQuantity a lp cargo md ≤ 0 →
      _greedy_allocation (a :: rest) lp cargo md =
        _greedy_allocation rest lp cargo md) ∧
    (0 < lp → 0 < cargo → 0 < specGreedyQuantity a lp cargo md →
      _greedy_allocation (a :: rest) lp cargo md =
        (_greedy_allocation rest
            (lp - specGreedyQuantity a lp cargo md * a.item.lp_cost)
            (cargo - (specGreedyQuantity a lp cargo md : ℚ) *
              a.item.volume_per_purchase) md).map
          (fun l => (a, specGreedyQuantity a lp cargo md) :: l)) ∧
    _greedy_allocation [] lp cargo md = some [] := by
  have hkey : specGreedyQuantity a lp cargo md = greedyQuantity a lp cargo md := by
    rw [specGreedyQuantity, greedyQuantity, fdiv_eq_floorQ lp a.item.lp_cost hcost]
    congr 1
    by_cases h0 : a.daily_volume_purchases = 0
    · rw [if_pos h0, if_neg (by rw [h0]; exact lt_irrefl 0)]
    · have hpos : 0 < a.daily_volume_purchases := lt_of_le_of_ne hdvp (Ne.symm h0)
      rw [if_neg h0, if_pos hpos, max_one_pyInt]
  have hguard : ¬(a.item.lp_cost = 0 ∨ a.item.volume_per_purchase = 0) := by
    push_neg
    exact ⟨ne_of_gt hcost, ne_of_gt hvol⟩
  refine ⟨hkey, ?_, ?_, ?_, rfl⟩
  · intro hb
    rw [_greedy_allocation, if_pos hb]
  · intro hlp hc hq
    rw [hkey] at hq
    rw [_greedy_allocation, if_neg (by push_neg; exact ⟨hlp, hc⟩),
      if_neg hguard, if_neg (by omega)]
  · intro hlp hc hq
    rw [hkey] at hq ⊢
    rw [_greedy_allocation, if_neg (by push_neg; exact ⟨hlp, hc⟩),
      if_neg hguard, if_pos hq]

/-- Witness for C2: the spec formula and the code agree on a concrete step. -/
theorem greedy_step_characterization_witness :
    specGreedyQuantity exA 2 10 14 = greedyQuantity exA 2 10 14 :=
  (greedy_step_characterization exA [] 2 10 14 (by decide) (by decide)
    (by decide)).1

/-- **C3**: In the diversified strategy, at every point of the round loop and
in the final result, the cumulative quantity of a candidate with positive
daily-lot-absorption never exceeds `floor(daily-lot-absorption ×
max-days-to-sell)`, and that of a candidate with zero absorption never
exceeds one lot. -/
theorem diversified_liquidity_cap_bound (viable : List ItemAnalysis)
    (lp : ℤ) (cargo md bd : ℚ) (hmd : 0 ≤ md) :
    (∀ (al : List (ItemAnalysis × ℤ)) (lp' : ℤ) (cargo' : ℚ) (made : Bool) r,
      (∀ x ∈ al, capProp md x) →
      divRound md bd al lp' cargo' made = some r →
      ∀ x ∈ r.1, capProp md x) ∧
    (∀ out, _diversified_allocation viable lp cargo md bd = some out →
      ∀ x ∈ out, capProp md x) := by
  constructor
  · intro al lp' cargo' made r hcap heq
    exact divRound_cap md bd hmd al lp' cargo' made r hcap heq
  · intro out heq
    unfold _diversified_allocation at heq
    rw [Option.map_eq_some'] at heq
    obtain ⟨al, hal, rfl⟩ := heq
    have hcap0 : ∀ x ∈ viable.map (fun a => (a, (0 : ℤ))), capProp md x := by
      intro x hx
      obtain ⟨a, _, rfl⟩ := List.mem_map.mp hx
      constructor
      · intro hdv
        exact Int.floor_nonneg.mpr (mul_nonneg hdv.le hmd)
      · intro _
        exact zero_le_one
    have hres := divLoopFuel_cap md bd hmd _ _ lp cargo true al hcap0 hal
    intro x hx
    exact hres x (List.mem_of_mem_filter hx)

/-- Witness for C3 at a concrete scenario. -/
theorem diversified_liquidity_cap_bound_witness : capProp 14 (exA, 1) :=
  (diversified_liquidity_cap_bound [exA, exB] 2 10 14 4 (by decide)).2
    [(exA, 1), (exB, 1)] (by decide) (exA, 1) (by decide)

/-- **C4**: The diversified round loop terminates: its result is independent
of any fuel at least two above the headroom measure (conjunct 1); a round
that allocates nothing ends the algorithm with the current allocations
(conjunct 2); and any progressing round strictly decreases the integer
remaining LP when every lot cost is positive (conjunct 3). -/
theorem diversified_round_loop_terminates (md bd : ℚ) :
    (∀ (n : ℕ) (al : List (ItemAnalysis × ℤ)) (lp : ℤ) (cargo : ℚ)
      (made : Bool),
      divMeasure md al + 2 ≤ n →
      divLoopFuel md bd n al lp cargo made =
        divLoopFuel md bd (divMeasure md al + 2) al lp cargo made) ∧
    (∀ (n : ℕ) (al : List (ItemAnalysis × ℤ)) (lp : ℤ) (cargo : ℚ) al' lp' c',
      0 < lp → 0 < cargo →
      divRound md bd al lp cargo false = some (al', lp', c', false) →
      divLoopFuel md bd (n + 2) al lp cargo true = some al') ∧
    (∀ (al : List (ItemAnalysis × ℤ)) (lp : ℤ) (cargo : ℚ) al' lp' c',
      (∀ x ∈ al, 0 < x.1.item.lp_cost) →
      divRound md bd al lp cargo false = some (al', lp', c', true) →
      lp' < lp) := by
  refine ⟨?_, ?_, ?_⟩
  · intro n al lp cargo made hn
    exact divLoopFuel_stab md bd (divMeasure md al) al lp cargo made n
      (divMeasure md al + 2) rfl hn (le_refl _)
  · intro n al lp cargo al' lp' c' hlp hcargo hround
    have h2 : n + 2 = (n + 1) + 1 := rfl
    rw [h2, divLoopFuel, if_pos ⟨rfl, hlp, hcargo⟩, hround]
    show divLoopFuel md bd (n + 1) al' lp' c' false = some al'
    rw [divLoopFuel]
    simp
  · intro al lp cargo al' lp' c' hinv hround
    exact (divRound_lp md bd al lp cargo false (al', lp', c', true) hinv
      hround).2 rfl rfl

/-- Witness for C4: fuel-independence at a concrete state. -/
theorem diversified_round_loop_terminates_witness :
    divLoopFuel 14 4 3 [] 5 5 true =
      divLoopFuel 14 4 (divMeasure 14 [] + 2) [] 5 5 true :=
  (diversified_round_loop_terminates 14 4).1 3 [] 5 5 true (by decide)

/-- **C5**: For every catalog entry (under the catalog invariant) and every
pair of optional quotes, the analyzer produces an `Analysis` iff the
input-good quote is present, the output-good quote is present with positive
price, and revenue-per-lot exceeds cost-per-lot; in every other case the
entry is excluded without an error. -/
theorem analyzer_produces_iff_viable (item : LPStoreItem)
    (mb mf : Option MarketData) (hlp : 0 < item.lp_cost)
    (hunits : 0 < item.units_per_purchase) :
    (analyzeItem item mb mf).isSome = true ↔
      ∃ b, mb = some b ∧ ∃ f, mf = some f ∧ 0 < f.price ∧
        b.price * (item.units_per_purchase : ℚ) + (item.isk_cost : ℚ) <
          f.price * (item.units_per_purchase : ℚ) := by
  cases mb with
  | none => simp [analyzeItem]
  | some b =>
    cases mf with
    | none => simp [analyzeItem]
    | some f =>
      by_cases hp : f.price ≤ 0
      · rw [analyzeItem]
        simp only [if_pos hp]
        constructor
        · intro h
          exact absurd h (by simp)
        · rintro ⟨b', hb', f', hf', hp', _⟩
          rw [Option.some.injEq] at hf'
          subst hf'
          exact absurd hp' (not_lt.mpr hp)
      · by_cases hprofit : f.price * (item.units_per_purchase : ℚ) -
            (b.price * (item.units_per_purchase : ℚ) + (item.isk_cost : ℚ)) ≤ 0
        · rw [analyzeItem]
          simp only [if_neg hp, if_pos hprofit]
          constructor
          · intro h
            exact absurd h (by simp)
          · rintro ⟨b', hb', f', hf', _, hrev⟩
            rw [Option.some.injEq] at hb' hf'
            subst hb'
            subst hf'
            exact absurd hrev (by linarith)
        · rw [analyzeItem]
          simp only [if_neg hp, if_neg hprofit]
          constructor
          · intro _
            exact ⟨b, rfl, f, rfl, not_le.mp hp, by linarith⟩
          · intro _
            simp

/-- Witness for C5: the sample EMP S entry is analyzed successfully. -/
theorem analyzer_produces_iff_viable_witness :
    (analyzeItem empS (some empSBase) (some empSFaction)).isSome = true :=
  (analyzer_produces_iff_viable empS (some empSBase) (some empSFaction)
    (by decide) (by decide)).mpr
    ⟨empSBase, rfl, empSFaction, rfl, by decide, by decide⟩

/-- Counterexample to C6 as stated: at the example entry the computed
profit-per-LP is 4000/3 = 1333.333…, not exactly 1333.33. -/
theorem analyzer_example_profit_per_lp_not_133333 :
    (analyzeItem empS (some empSBase) (some empSFaction)).map
      ItemAnalysis.net_isk_per_lp ≠ some (133333 / 100) := by
  decide

/-- **C6 (amended)**: For every retained Analysis, cost-per-lot = input quote
price × units-per-lot + fixed currency cost, revenue-per-lot = output quote
price × units-per-lot, profit-per-lot = revenue − cost exactly, and
profit-per-LP = profit-per-lot / lp-cost; for the entry with lp-cost 1200,
currency cost 1,200,000, units-per-lot 5000, input price 8 and output price
568 these equal 1,240,000, 2,840,000, 1,600,000 and 4000/3 (which is 1333.33
when rounded to two decimals) respectively. -/
theorem analyzer_computed_fields :
    (∀ (item : LPStoreItem) (mb mf : Option MarketData) an,
        analyzeItem item mb mf = some an →
        an.total_cost_per_purchase =
          an.base_market.price * (an.item.units_per_purchase : ℚ) +
            (an.item.isk_cost : ℚ) ∧
        an.faction_revenue_per_purchase =
          an.faction_market.price * (an.item.units_per_purchase : ℚ) ∧
        an.profit_per_purchase =
          an.faction_revenue_per_purchase - an.total_cost_per_purchase ∧
        an.net_isk_per_lp = an.profit_per_purchase / (an.item.lp_cost : ℚ)) ∧
    (analyzeItem empS (some empSBase) (some empSFaction)).map
        (fun an => (an.total_cost_per_purchase,
          an.faction_revenue_per_purchase, an.profit_per_purchase,
          an.net_isk_per_lp)) =
      some (1240000, 2840000, 1600000, 4000 / 3) := by
  constructor
  · intro item mb mf an heq
    cases mb with
    | none => exact absurd heq (by simp [analyzeItem])
    | some b =>
      cases mf with
      | none => exact absurd heq (by simp [analyzeItem])
      | some f =>
        rw [analyzeItem] at heq
        by_cases hp : f.price ≤ 0
        · rw [if_pos hp] at heq
          exact absurd heq (by simp)
        · simp only [if_neg hp] at heq
          by_cases hprofit : f.price * (item.units_per_purchase : ℚ) -
              (b.price * (item.units_per_purchase : ℚ) + (item.isk_cost : ℚ)) ≤ 0
          · rw [if_pos hprofit] at heq
            exact absurd heq (by simp)
          · rw [if_neg hprofit] at heq
            rw [Option.some.injEq] at heq
            subst heq
            exact ⟨rfl, rfl, rfl, rfl⟩
  · decide

/-- Witness for C6: the computed-field equations instantiated at the example
analysis. -/
theorem analyzer_computed_fields_witness :
    empSAnalysis.profit_per_purchase =
      empSAnalysis.faction_revenue_per_purchase -
        empSAnalysis.total_cost_per_purchase ∧
    empSAnalysis.net_isk_per_lp =
      empSAnalysis.profit_per_purchase / (empSAnalysis.item.lp_cost : ℚ) := by
  have h := analyzer_computed_fields.1 empS (some empSBase) (some empSFaction)
    empSAnalysis (by decide)
  exact ⟨h.2.2.1, h.2.2.2⟩

/-- **C7**: With `lp_density_weight = 0` the composite score of every
candidate equals its liquidity-penalized profit-per-LP-point — the density
factor is never applied — so the resulting candidate ordering is identical to
the ordering by liquidity-penalized profit-per-LP-point alone, for any
exponentiation function, max-days setting and average density. -/
theorem zero_density_weight_is_pure_profit_ordering (rpow : ℚ → ℚ → ℚ)
    (md avg : ℚ) (l : List ItemAnalysis) :
    (∀ a ∈ l, sort_key rpow md 0 avg a = liquidity_penalized_score md a) ∧
    sortDesc (sort_key rpow md 0 avg) l =
      sortDesc (liquidity_penalized_score md) l := by
  have hkey : ∀ a, sort_key rpow md 0 avg a = liquidity_penalized_score md a := by
    intro a
    rw [sort_key, liquidity_penalized_score]
    simp only [lt_irrefl, false_and, if_false]
  exact ⟨fun a _ => hkey a, by rw [funext hkey]⟩

/-- Witness for C7 at a concrete candidate list. -/
theorem zero_density_weight_is_pure_profit_ordering_witness :
    sortDesc (sort_key (fun x w => 1) 14 0 1) [exA, exB] =
      sortDesc (liquidity_penalized_score 14) [exA, exB] :=
  (zero_density_weight_is_pure_profit_ordering (fun x w => 1) 14 1
    [exA, exB]).2

/-- **C8**: For every non-empty analysis list, if the minimum-liquidity
threshold is strictly above every candidate's daily-lot-absorption, the
candidate set used downstream equals the full unfiltered list; the liquidity
filter alone never yields an empty candidate set. -/
theorem liquidity_filter_fallback (min_liquidity : ℚ)
    (analyses : List ItemAnalysis) (hne : analyses ≠ []) :
    ((∀ a ∈ analyses, a.daily_volume_purchases < min_liquidity) →
      viable_items min_liquidity analyses = analyses) ∧
    viable_items min_liquidity analyses ≠ [] := by
  constructor
  · intro hall
    have hfil : analyses.filter
        (fun a => decide (min_liquidity ≤ a.daily_volume_purchases)) = [] := by
      rw [List.filter_eq_nil_iff]
      intro a ha
      simpa using not_le.mpr (hall a ha)
    simp [viable_items, hfil]
  · by_cases hfil : analyses.filter
        (fun a => decide (min_liquidity ≤ a.daily_volume_purchases)) = []
    · simpa [viable_items, hfil] using hne
    · simpa [viable_items, hfil] using hfil

/-- Witness for C8: at a threshold above the sample candidate's absorption,
the fallback returns the unfiltered list. -/
theorem liquidity_filter_fallback_witness :
    viable_items 1 [exA] = [exA] :=
  (liquidity_filter_fallback 1 [exA] (by simp)).1 (by decide)

/-- **C9**: When both budgets are large enough never to bind (at least a full
round's batch plus one lot of every candidate), the diversified strategy
assigns a nonzero quantity to every candidate whose liquidity cap is at least
one lot (the cap being one lot when daily-lot-absorption is 0); and on the
concrete input with two equally profitable candidates and budget for exactly
one lot of each, greedy assigns everything to the first candidate and nothing
to the second while diversified assigns one lot to each. -/
theorem diversified_spreads_where_greedy_concentrates
    (l : List ItemAnalysis) (lp : ℤ) (cargo md bd : ℚ)
    (hinv : ∀ a ∈ l, 0 < a.item.lp_cost ∧ 0 < a.item.volume_per_purchase)
    (hmd : 0 ≤ md)
    (hlp : lpNeed bd l ≤ lp) (hcargo : volNeed bd l ≤ cargo) :
    (∀ out, _diversified_allocation l lp cargo md bd = some out →
      ∀ a ∈ l,
        (0 < a.daily_volume_purchases →
          1 ≤ ⌊a.daily_volume_purchases * md⌋) →
        ∃ q, 0 < q ∧ (a, q) ∈ out) ∧
    (_greedy_allocation [exA, exB] 2 10 14 = some [(exA, 2)] ∧
      _diversified_allocation [exA, exB] 2 10 14 4 =
        some [(exA, 1), (exB, 1)]) := by
  constructor
  · intro out heq a ha hcap
    unfold _diversified_allocation at heq
    rw [Option.map_eq_some'] at heq
    obtain ⟨al, hal, rfl⟩ := heq
    have hmapfst : (l.map (fun a => (a, (0 : ℤ)))).map Prod.fst = l := by
      rw [List.map_map]
      exact List.map_id l
    have hinv0 : ∀ x ∈ l.map (fun a => (a, (0 : ℤ))),
        0 < x.1.item.lp_cost ∧ 0 < x.1.item.volume_per_purchase := by
      intro x hx
      obtain ⟨b, hb, rfl⟩ := List.mem_map.mp hx
      exact hinv b hb
    have hq0 : ∀ x ∈ l.map (fun a => (a, (0 : ℤ))), x.2 = 0 := by
      intro x hx
      obtain ⟨b, _, rfl⟩ := List.mem_map.mp hx
      rfl
    have hterm_mem : (roundBatchBound bd a + 1) * a.item.lp_cost ≤ lpNeed bd l := by
      refine List.single_le_sum ?_ _ ?_
      · intro x hx
        obtain ⟨b, hb, rfl⟩ := List.mem_map.mp hx
        have hb1 := (hinv b hb).1
        have hb2 := one_le_roundBatchBound bd b
        positivity
      · exact List.mem_map_of_mem _ ha
    have htermv_mem : ((roundBatchBound bd a : ℚ) + 1) *
        a.item.volume_per_purchase ≤ volNeed bd l := by
      refine List.single_le_sum ?_ _ ?_
      · intro x hx
        obtain ⟨b, hb, rfl⟩ := List.mem_map.mp hx
        have hb1 := (hinv b hb).2
        have hb2 : (1 : ℚ) ≤ (roundBatchBound bd b : ℚ) := by
          exact_mod_cast one_le_roundBatchBound bd b
        positivity
      · exact List.mem_map_of_mem _ ha
    have hterm2 : 2 ≤ (roundBatchBound bd a + 1) * a.item.lp_cost := by
      have h1 := (hinv a ha).1
      have h2 := one_le_roundBatchBound bd a
      nlinarith
    have htermv2 : 0 < ((roundBatchBound bd a : ℚ) + 1) *
        a.item.volume_per_purchase := by
      have h1 := (hinv a ha).2
      have h2 : (1 : ℚ) ≤ (roundBatchBound bd a : ℚ) := by
        exact_mod_cast one_le_roundBatchBound bd a
      nlinarith
    have hlp_pos : 0 < lp := by omega
    have hcargo_pos : 0 < cargo := by linarith
    have h2eq : divMeasure md (l.map (fun a => (a, (0 : ℤ)))) + 2 =
        (divMeasure md (l.map (fun a => (a, (0 : ℤ)))) + 1) + 1 := rfl
    rw [h2eq, divLoopFuel] at hal
    rw [if_pos ⟨rfl, hlp_pos, hcargo_pos⟩] at hal
    rcases hround : divRound md bd (l.map (fun a => (a, (0 : ℤ)))) lp cargo false
      with _ | ⟨al1, lp1, c1, made1⟩
    · rw [hround] at hal
      exact absurd hal (by simp)
    · rw [hround] at hal
      have hr1 := divRound_roundone md bd (l.map (fun a => (a, (0 : ℤ))))
        lp cargo false (al1, lp1, c1, made1) hinv0 hq0
        (by rw [hmapfst]; exact hlp) (by rw [hmapfst]; exact hcargo) hround
      have hmono := divLoopFuel_forall2 md bd _ al1 lp1 c1 made1 al hal
      have hcomp : List.Forall₂
          (fun (x : ItemAnalysis × ℤ) (z : ItemAnalysis × ℤ) =>
            x.1 = z.1 ∧ (1 ≤ liquidityCap md x.1 → 1 ≤ z.2))
          (l.map (fun a => (a, (0 : ℤ)))) al := by
        refine forall2_comp
          (P := fun (x y : ItemAnalysis × ℤ) =>
            x.1 = y.1 ∧ (1 ≤ liquidityCap md x.1 → 1 ≤ y.2))
          (Q := fun (x y : ItemAnalysis × ℤ) => x.1 = y.1 ∧ x.2 ≤ y.2)
          ?_ hr1 hmono
        rintro x y z ⟨h1, h2⟩ ⟨h3, h4⟩
        exact ⟨h1.trans h3, fun hc => le_trans (h2 hc) h4⟩
      have hcapa : 1 ≤ liquidityCap md a := by
        by_cases hd : 0 < a.daily_volume_purchases
        · rw [liquidityCap, if_pos hd, pyInt_eq_floor (mul_nonneg hd.le hmd)]
          exact hcap hd
        · rw [liquidityCap, if_neg hd]
      obtain ⟨z, hz, hza, hzq⟩ :=
        forall2_mem_left hcomp (a, 0) (List.mem_map_of_mem _ ha)
      obtain ⟨z1, z2⟩ := z
      simp only at hza hzq
      subst hza
      refine ⟨z2, hzq hcapa, ?_⟩
      refine List.mem_filter.mpr ⟨hz, ?_⟩
      simpa using hzq hcapa
  · exact ⟨by decide, by decide⟩

/-- Witness for C9: the concrete divergence scenario. -/
theorem diversified_spreads_where_greedy_concentrates_witness :
    _greedy_allocation [exA, exB] 2 10 14 = some [(exA, 2)] ∧
      _diversified_allocation [exA, exB] 2 10 14 4 =
        some [(exA, 1), (exB, 1)] :=
  (diversified_spreads_where_greedy_concentrates [] 5 5 14 4 (by simp)
    (by decide) (by decide) (by decide)).2

/-- **C10**: The allocators are total only for candidates with positive
volume-per-lot: for the candidate `badA` with volume-per-lot 0 the
cargo-bound computation divides by zero (both allocators reach the error
branch), and with the division-guard precondition `volume_per_purchase > 0`
(together with the catalog invariant `lp_cost > 0`) both allocators always
return a plan. -/
theorem allocators_require_positive_volume :
    _greedy_allocation [badA] 10 10 14 = none ∧
    _diversified_allocation [badA] 10 10 14 4 = none ∧
    (∀ (l : List ItemAnalysis) (lp : ℤ) (cargo md bd : ℚ),
      (∀ a ∈ l, 0 < a.item.lp_cost ∧ 0 < a.item.volume_per_purchase) →
      (_greedy_allocation l lp cargo md).isSome = true ∧
      (_diversified_allocation l lp cargo md bd).isSome = true) := by
  refine ⟨by decide, by decide, ?_⟩
  intro l lp cargo md bd hinv
  constructor
  · exact greedy_isSome l lp cargo md
      (fun a ha => ⟨ne_of_gt (hinv a ha).1, ne_of_gt (hinv a ha).2⟩)
  · unfold _diversified_allocation
    rw [Option.isSome_map']
    refine divLoopFuel_isSome md bd _ _ lp cargo true rfl ?_
    intro x hx
    obtain ⟨a, ha, rfl⟩ := List.mem_map.mp hx
    exact ⟨ne_of_gt (hinv a ha).1, ne_of_gt (hinv a ha).2⟩

/-- Witness for C10's guarded totality at a concrete input. -/
theorem allocators_require_positive_volume_witness :
    (_greedy_allocation [exA] 5 5 14).isSome = true ∧
    (_diversified_allocation [exA] 5 5 14 4).isSome = true :=
  allocators_require_positive_volume.2.2 [exA] 5 5 14 4 (by decide)
